import Mathlib

/-!
Verification of the industry-themed agent activity panels.

This development gives a shallow embedding, over `List Char` strings and
explicit state records, of the logic of the two display panels:

* `AgentEventsPanel` (src/src/panels/AgentEventsPanel.tsx): the bounded
  event buffer (`MAX_EVENTS`, the append handler), the per-instance event
  counter (`eventCounterRef`), the repository receive filter, the
  expansion-set toggle and `clearEvents`;
* `AgentSessionsPanel` (src/src/panels/AgentSessionsPanel.tsx):
  `filteredSessions` (status filter plus free-text search),
  `sessionsByDirectory` (directory normalization, grouping and sorting)
  and `normalizedRepositoryPath`;
* `AgentSessionCard` (src/src/components/AgentSessionCard.tsx):
  `getTodoToShow`;
* the session types module (src/src/types/session.types.ts):
  `SESSION_COLORS` and `getSessionColor`.

JavaScript strings are modelled as `List Char` (written `Str`), JS `Set`
as `Finset`, optional fields as `Option`, and the falsy checks of the
source (`|| fallback`, `filter(Boolean)`, `if (searchQuery)`) as explicit
emptiness tests.  `String.prototype.localeCompare` is modelled as the
code-point lexicographic comparison on `List Char`.
-/

/-- JavaScript strings, modelled as lists of characters. -/
abbrev Str := List Char

/-! ## Events panel: data model -/

/-- The repository descriptor carried by an agent event
(`event.repository` in AgentEventsPanel.tsx). -/
structure RepositoryInfo where
  root : Str
  owner : Str
  repo : Str
deriving DecidableEq

/-- The fields of `RepoNormalizedUniversalAgentSessionEvent` that the
events panel reads: event type, session id, working directory, optional
repository descriptor and optional tool name. -/
structure AgentEvent where
  eventType : Str
  sessionId : Str
  workingDirectory : Str
  repository : Option RepositoryInfo
  toolName : Option Str
deriving DecidableEq

/-- `EventEntry` from AgentEventsPanel.tsx: a received event together
with its receipt timestamp and its local sequence number. -/
structure EventEntry where
  event : AgentEvent
  timestamp : Nat
  localIndex : Nat
deriving DecidableEq

/-- `MAX_EVENTS` (AgentEventsPanel.tsx line 27). -/
def MAX_EVENTS : Nat := 500

/-- The append handler inside `setEvents` (AgentEventsPanel.tsx lines
78-87): append the new entry, and when the result exceeds `MAX_EVENTS`
keep only the last `MAX_EVENTS` entries (`updated.slice(-MAX_EVENTS)`). -/
def appendEvent (prev : List EventEntry) (entry : EventEntry) : List EventEntry :=
  let updated := prev ++ [entry]
  if MAX_EVENTS < updated.length then updated.drop (updated.length - MAX_EVENTS) else updated

/-- The buffer obtained by starting from the empty buffer and appending a
whole sequence of accepted events in receipt order. -/
def receiveAll (es : List EventEntry) : List EventEntry :=
  es.foldl appendEvent []

/-! ## Events panel: buffer lemmas -/

theorem appendEvent_sublist (prev : List EventEntry) (entry : EventEntry) :
    (appendEvent prev entry).Sublist (prev ++ [entry]) := by
  unfold appendEvent
  dsimp only
  split
  · exact List.drop_sublist _ _
  · exact List.Sublist.refl _

theorem appendEvent_of_suffix (es : List EventEntry) (entry : EventEntry) :
    appendEvent (es.drop (es.length - MAX_EVENTS)) entry
      = (es ++ [entry]).drop ((es ++ [entry]).length - MAX_EVENTS) := by
  have hM : MAX_EVENTS = 500 := rfl
  unfold appendEvent
  dsimp only
  rcases Nat.lt_or_ge es.length MAX_EVENTS with hlt | hge
  · have h0 : es.length - MAX_EVENTS = 0 := by omega
    rw [h0, List.drop_zero]
    have hnot : ¬ MAX_EVENTS < (es ++ [entry]).length := by
      simp only [List.length_append, List.length_cons, List.length_nil]
      omega
    rw [if_neg hnot]
    have h1 : (es ++ [entry]).length - MAX_EVENTS = 0 := by
      simp only [List.length_append, List.length_cons, List.length_nil]
      omega
    rw [h1, List.drop_zero]
  · have hlen : (es.drop (es.length - MAX_EVENTS)).length = MAX_EVENTS := by
      simp only [List.length_drop]; omega
    have hcond : MAX_EVENTS < (es.drop (es.length - MAX_EVENTS) ++ [entry]).length := by
      simp only [List.length_append, List.length_drop, List.length_cons, List.length_nil]
      omega
    rw [if_pos hcond]
    have hd1 : (es.drop (es.length - MAX_EVENTS) ++ [entry]).length - MAX_EVENTS = 1 := by
      simp only [List.length_append, List.length_drop, List.length_cons, List.length_nil]
      omega
    rw [hd1]
    have hone : (1 : Nat) ≤ (es.drop (es.length - MAX_EVENTS)).length := by
      rw [hlen]; omega
    rw [List.drop_append_of_le_length hone, List.drop_drop]
    have hk : (es ++ [entry]).length - MAX_EVENTS = es.length - MAX_EVENTS + 1 := by
      simp only [List.length_append, List.length_cons, List.length_nil]
      omega
    rw [hk]
    have hle : es.length - MAX_EVENTS + 1 ≤ es.length := by omega
    rw [List.drop_append_of_le_length hle]

theorem receiveAll_eq_drop (es : List EventEntry) :
    receiveAll es = es.drop (es.length - MAX_EVENTS) := by
  induction es using List.reverseRecOn with
  | nil => simp [receiveAll]
  | append_singleton l e ih =>
    have hstep : receiveAll (l ++ [e]) = appendEvent (receiveAll l) e := by
      unfold receiveAll
      rw [List.foldl_append]
      rfl
    rw [hstep, ih, appendEvent_of_suffix]

/-- C1: for every sequence of received events, appending events one at a
time (the `setEvents` handler of AgentEventsPanel.tsx, lines 78-87, with
`MAX_EVENTS = 500`) leaves the buffer holding exactly the most recently
received events, in receipt order: the buffer is the final segment of the
receipt sequence obtained by dropping all but the last `MAX_EVENTS`
entries, its length is `min (number received) 500`, and in particular it
never exceeds 500, so that after more than 500 receipts the buffer holds
exactly the last 500 events with the oldest evicted first. -/
theorem eventsBuffer_capacity_and_order (es : List EventEntry) :
    receiveAll es = es.drop (es.length - MAX_EVENTS)
      ∧ (receiveAll es).length = min es.length MAX_EVENTS
      ∧ (receiveAll es).length ≤ MAX_EVENTS := by
  refine ⟨receiveAll_eq_drop es, ?_, ?_⟩
  · rw [receiveAll_eq_drop es, List.length_drop]
    omega
  · rw [receiveAll_eq_drop es, List.length_drop]
    omega

/-! ## Events panel: state machine

The panel instance's UI state: the buffered entries (`events`), the set
of expanded sequence numbers (`expandedEvents`), the repository-filter
toggle (`filterByRepo`) and the monotone counter (`eventCounterRef`). -/

structure EventsPanelState where
  events : List EventEntry
  expandedEvents : Finset Nat
  filterByRepo : Bool
  eventCounter : Nat
deriving DecidableEq

/-- The state at mount: empty buffer, nothing expanded, repository
filter on, counter at zero. -/
def initialEventsPanelState : EventsPanelState :=
  { events := [], expandedEvents := ∅, filterByRepo := true, eventCounter := 0 }

/-- `agentEvent.repository?.root || agentEvent.workingDirectory`
(AgentEventsPanel.tsx line 72): the repository root when present and
non-empty (JS truthiness), otherwise the working directory. -/
def eventRepoPath (e : AgentEvent) : Str :=
  match e.repository with
  | some repo => if repo.root.isEmpty then e.workingDirectory else repo.root
  | none => e.workingDirectory

/-- The guard of the receive handler (AgentEventsPanel.tsx lines 71-76):
the event is processed unless the repository filter is on, a repository
path is scoped (non-null and non-empty, JS truthiness), and the event's
repository path differs from it. -/
def passesRepoFilter (repositoryPath : Option Str) (filterByRepo : Bool) (e : AgentEvent) : Bool :=
  match repositoryPath with
  | none => true
  | some p =>
      if filterByRepo && !p.isEmpty then decide (eventRepoPath e = p) else true

/-- The `agent-event:received` handler (AgentEventsPanel.tsx lines
63-92): a filtered-out event leaves the state untouched; an accepted
event is stamped with the receipt time and the current counter value,
appended through `appendEvent`, and the counter is incremented. -/
def receiveEvent (repositoryPath : Option Str) (now : Nat)
    (s : EventsPanelState) (e : AgentEvent) : EventsPanelState :=
  if passesRepoFilter repositoryPath s.filterByRepo e then
    { s with
        events := appendEvent s.events
          { event := e, timestamp := now, localIndex := s.eventCounter },
        eventCounter := s.eventCounter + 1 }
  else s

/-- `clearEvents` (AgentEventsPanel.tsx lines 127-130): empties the
buffer and the expansion set; the counter is left alone. -/
def clearEvents (s : EventsPanelState) : EventsPanelState :=
  { s with events := [], expandedEvents := ∅ }

/-- `toggleExpanded` (AgentEventsPanel.tsx lines 114-121) on the
expansion set alone: delete the sequence number when present, insert it
when absent. -/
def toggleExpanded (s : Finset Nat) (index : Nat) : Finset Nat :=
  if index ∈ s then s.erase index else insert index s

/-- `toggleExpanded` acting on the whole panel state. -/
def toggleExpandedState (s : EventsPanelState) (index : Nat) : EventsPanelState :=
  { s with expandedEvents := toggleExpanded s.expandedEvents index }

/-- The filter-by-repo toggle button (AgentEventsPanel.tsx line 194). -/
def setFilterByRepo (s : EventsPanelState) (b : Bool) : EventsPanelState :=
  { s with filterByRepo := b }

/-- The user-visible operations that mutate the events panel state. -/
inductive PanelOp where
  | receive (e : AgentEvent) (now : Nat)
  | clear
  | toggleRepoFilter
  | toggle (index : Nat)
deriving DecidableEq

def stepOp (repositoryPath : Option Str) (s : EventsPanelState) (op : PanelOp) : EventsPanelState :=
  match op with
  | .receive e now => receiveEvent repositoryPath now s e
  | .clear => clearEvents s
  | .toggleRepoFilter => setFilterByRepo s (!s.filterByRepo)
  | .toggle i => toggleExpandedState s i

def runOps (repositoryPath : Option Str) (s : EventsPanelState) (ops : List PanelOp) : EventsPanelState :=
  ops.foldl (stepOp repositoryPath) s

/-- The local sequence numbers handed out over a run, one per accepted
receive, in receipt order. -/
def assignedIndices (repositoryPath : Option Str) (s : EventsPanelState) :
    List PanelOp → List Nat
  | [] => []
  | op :: rest =>
    match op with
    | .receive e now =>
        if passesRepoFilter repositoryPath s.filterByRepo e then
          s.eventCounter ::
            assignedIndices repositoryPath (stepOp repositoryPath s (.receive e now)) rest
        else assignedIndices repositoryPath (stepOp repositoryPath s (.receive e now)) rest
    | op => assignedIndices repositoryPath (stepOp repositoryPath s op) rest

/-! ## Events panel: counter and sequence-number lemmas -/

theorem stepOp_receive_eventCounter (rp : Option Str) (now : Nat)
    (s : EventsPanelState) (e : AgentEvent) :
    (stepOp rp s (.receive e now)).eventCounter =
      if passesRepoFilter rp s.filterByRepo e then s.eventCounter + 1 else s.eventCounter := by
  show (receiveEvent rp now s e).eventCounter = _
  unfold receiveEvent
  split
  · rfl
  · rfl

theorem stepOp_clear_eventCounter (rp : Option Str) (s : EventsPanelState) :
    (stepOp rp s .clear).eventCounter = s.eventCounter := rfl

theorem stepOp_toggleRepoFilter_eventCounter (rp : Option Str) (s : EventsPanelState) :
    (stepOp rp s .toggleRepoFilter).eventCounter = s.eventCounter := rfl

theorem stepOp_toggle_eventCounter (rp : Option Str) (s : EventsPanelState) (i : Nat) :
    (stepOp rp s (.toggle i)).eventCounter = s.eventCounter := rfl

theorem assignedIndices_eq_range' (rp : Option Str) :
    ∀ (ops : List PanelOp) (s : EventsPanelState),
      assignedIndices rp s ops
        = List.range' s.eventCounter (assignedIndices rp s ops).length := by
  intro ops
  induction ops with
  | nil => intro s; rfl
  | cons op rest ih =>
    intro s
    cases op with
    | receive e now =>
      by_cases h : passesRepoFilter rp s.filterByRepo e
      · have hc : (stepOp rp s (.receive e now)).eventCounter = s.eventCounter + 1 := by
          rw [stepOp_receive_eventCounter, if_pos h]
        simp only [assignedIndices, if_pos h]
        rw [List.length_cons, List.range'_succ]
        have := ih (stepOp rp s (.receive e now))
        rw [hc] at this
        exact congrArg (s.eventCounter :: ·) this
      · have hc : (stepOp rp s (.receive e now)).eventCounter = s.eventCounter := by
          rw [stepOp_receive_eventCounter, if_neg h]
        simp only [assignedIndices, if_neg h]
        have := ih (stepOp rp s (.receive e now))
        rw [hc] at this
        exact this
    | clear =>
      simp only [assignedIndices]
      have := ih (stepOp rp s .clear)
      rw [stepOp_clear_eventCounter] at this
      exact this
    | toggleRepoFilter =>
      simp only [assignedIndices]
      have := ih (stepOp rp s .toggleRepoFilter)
      rw [stepOp_toggleRepoFilter_eventCounter] at this
      exact this
    | toggle i =>
      simp only [assignedIndices]
      have := ih (stepOp rp s (.toggle i))
      rw [stepOp_toggle_eventCounter] at this
      exact this

/-- The invariant that ties the buffered entries to the counter: indices
in the buffer are strictly increasing and all below the counter. -/
def BufferInv (s : EventsPanelState) : Prop :=
  (s.events.map (fun en => en.localIndex)).Pairwise (· < ·)
  ∧ ∀ i ∈ s.events.map (fun en => en.localIndex), i < s.eventCounter

theorem bufferInv_initial : BufferInv initialEventsPanelState := by
  constructor
  · exact List.Pairwise.nil
  · intro i hi
    simp [initialEventsPanelState] at hi

theorem bufferInv_step (rp : Option Str) (s : EventsPanelState) (op : PanelOp)
    (h : BufferInv s) : BufferInv (stepOp rp s op) := by
  obtain ⟨hpw, hlt⟩ := h
  cases op with
  | receive e now =>
    show BufferInv (receiveEvent rp now s e)
    unfold receiveEvent
    split
    · set entry : EventEntry := { event := e, timestamp := now, localIndex := s.eventCounter }
      have hsub : ((appendEvent s.events entry).map (fun en => en.localIndex)).Sublist
          ((s.events ++ [entry]).map (fun en => en.localIndex)) :=
        List.Sublist.map _ (appendEvent_sublist s.events entry)
      have hbig : ((s.events ++ [entry]).map (fun en => en.localIndex)).Pairwise (· < ·) := by
        rw [List.map_append]
        rw [List.pairwise_append]
        refine ⟨hpw, by simp, ?_⟩
        intro a ha b hb
        simp only [List.map_cons, List.map_nil, List.mem_singleton] at hb
        subst hb
        exact hlt a ha
      constructor
      · exact hbig.sublist hsub
      · intro i hi
        have hi2 : i ∈ (s.events ++ [entry]).map (fun en => en.localIndex) :=
          hsub.mem hi
        rw [List.map_append] at hi2
        rcases List.mem_append.mp hi2 with hi3 | hi3
        · exact Nat.lt_succ_of_lt (hlt i hi3)
        · simp only [List.map_cons, List.map_nil, List.mem_singleton] at hi3
          subst hi3
          exact Nat.lt_succ_self _
    · exact ⟨hpw, hlt⟩
  | clear =>
    constructor
    · exact List.Pairwise.nil
    · intro i hi
      simp [clearEvents, stepOp] at hi
  | toggleRepoFilter => exact ⟨hpw, hlt⟩
  | toggle i => exact ⟨hpw, hlt⟩

theorem bufferInv_runOps (rp : Option Str) (ops : List PanelOp) (s : EventsPanelState)
    (h : BufferInv s) : BufferInv (runOps rp s ops) := by
  induction ops generalizing s with
  | nil => exact h
  | cons op rest ih =>
    exact ih (stepOp rp s op) (bufferInv_step rp s op h)

/-- C4: over any sequence of panel operations starting from the mount
state, the local sequence numbers handed out at receipt are `0, 1, 2, …`
in receipt order: the assignment trace equals an initial range of the
naturals, hence is strictly increasing and free of repetitions, and this
holds across `clearEvents` because `eventCounterRef` is never reset.  The
trace equation also shows the assigned number is determined solely by how
many events were accepted before, never by any field of the event
payload; and the buffered entries always carry strictly increasing
`localIndex` values. -/
theorem localIndex_assignment (rp : Option Str) (ops : List PanelOp) :
    assignedIndices rp initialEventsPanelState ops
        = List.range' 0 (assignedIndices rp initialEventsPanelState ops).length
      ∧ (assignedIndices rp initialEventsPanelState ops).Pairwise (· < ·)
      ∧ (assignedIndices rp initialEventsPanelState ops).Nodup
      ∧ ((runOps rp initialEventsPanelState ops).events.map
          (fun en => en.localIndex)).Pairwise (· < ·) := by
  have h0 : initialEventsPanelState.eventCounter = 0 := rfl
  have heq := assignedIndices_eq_range' rp ops initialEventsPanelState
  rw [h0] at heq
  refine ⟨heq, ?_, ?_, ?_⟩
  · rw [heq]
    exact List.pairwise_lt_range' 0 _ 1
  · rw [heq]
    exact List.nodup_range' 0 _ 1
  · exact (bufferInv_runOps rp ops initialEventsPanelState bufferInv_initial).1

/-- C8: a single toggle of sequence number `n` removes `n` from the
expansion set when present and inserts it when absent
(`toggleExpanded`, AgentEventsPanel.tsx lines 114-121), and two
consecutive toggles of `n` restore the set exactly. -/
theorem toggleExpanded_involutive (s : Finset Nat) (n : Nat) :
    (n ∈ s → toggleExpanded s n = s.erase n)
    ∧ (n ∉ s → toggleExpanded s n = insert n s)
    ∧ toggleExpanded (toggleExpanded s n) n = s := by
  by_cases h : n ∈ s
  · refine ⟨fun _ => by simp [toggleExpanded, h], fun hn => absurd h hn, ?_⟩
    have h1 : toggleExpanded s n = s.erase n := by simp [toggleExpanded, h]
    rw [h1]
    have hnot : n ∉ s.erase n := Finset.not_mem_erase n s
    have h2 : toggleExpanded (s.erase n) n = insert n (s.erase n) := by
      simp [toggleExpanded, hnot]
    rw [h2, Finset.insert_erase h]
  · refine ⟨fun hn => absurd hn h, fun _ => by simp [toggleExpanded, h], ?_⟩
    have h1 : toggleExpanded s n = insert n s := by simp [toggleExpanded, h]
    rw [h1]
    have hmem : n ∈ insert n s := Finset.mem_insert_self n s
    have h2 : toggleExpanded (insert n s) n = (insert n s).erase n := by
      simp [toggleExpanded, hmem]
    rw [h2, Finset.erase_insert h]

theorem toggleExpanded_involutive_witness :
    ((2 : Nat) ∈ ({1, 2} : Finset Nat))
    ∧ toggleExpanded {1, 2} 2 = ({1, 2} : Finset Nat).erase 2
    ∧ toggleExpanded (toggleExpanded {1, 2} 2) 2 = {1, 2} :=
  ⟨by decide, (toggleExpanded_involutive {1, 2} 2).1 (by decide),
    (toggleExpanded_involutive {1, 2} 2).2.2⟩

/-- An event located in another repository: no repository descriptor and
a working directory different from the scoped path used below. -/
def foreignEvent : AgentEvent :=
  { eventType := ['s', 't', 'o', 'p'], sessionId := ['s', '1'],
    workingDirectory := ['/', 'x'], repository := none, toolName := none }

/-- C10: with the repository filter enabled and a (truthy) repository
path scoped, a received event whose repository root — or, with no root,
whose working directory — differs from the scoped path leaves the panel
state untouched: the event is dropped at receipt (AgentEventsPanel.tsx
lines 71-76), so it is not buffered, and no later operation (for
instance disabling the filter) can surface it. -/
theorem repoFilter_drops_foreign_events (p : Str) (s : EventsPanelState) (e : AgentEvent)
    (now : Nat) (hfb : s.filterByRepo = true) (hp : p ≠ [])
    (hne : eventRepoPath e ≠ p) :
    receiveEvent (some p) now s e = s
      ∧ ∀ ops : List PanelOp,
          runOps (some p) s (PanelOp.receive e now :: ops) = runOps (some p) s ops := by
  have hemp : (!p.isEmpty) = true := by
    cases p with
    | nil => exact absurd rfl hp
    | cons a l => rfl
  have hpass : passesRepoFilter (some p) s.filterByRepo e = false := by
    rw [hfb]
    show (if (true && !p.isEmpty) = true then decide (eventRepoPath e = p) else true) = false
    rw [Bool.true_and, hemp, if_pos rfl]
    exact decide_eq_false hne
  have h1 : receiveEvent (some p) now s e = s := by
    unfold receiveEvent
    rw [hpass]
    simp
  refine ⟨h1, fun ops => ?_⟩
  show List.foldl (stepOp (some p)) (stepOp (some p) s (.receive e now)) ops
      = List.foldl (stepOp (some p)) s ops
  have hs : stepOp (some p) s (.receive e now) = s := h1
  rw [hs]

theorem repoFilter_drops_foreign_events_witness :
    (initialEventsPanelState.filterByRepo = true
      ∧ (['/', 'r'] : Str) ≠ []
      ∧ eventRepoPath foreignEvent ≠ ['/', 'r'])
    ∧ receiveEvent (some ['/', 'r']) 0 initialEventsPanelState foreignEvent
        = initialEventsPanelState :=
  ⟨⟨by decide, by decide, by decide⟩,
    (repoFilter_drops_foreign_events ['/', 'r'] initialEventsPanelState foreignEvent 0
      (by decide) (by decide) (by decide)).1⟩

/-! ## Session colors (src/src/types/session.types.ts) -/

/-- `SESSION_COLORS` (session.types.ts lines 109-112): the eight fixed
palette entries. -/
def SESSION_COLORS : List String :=
  ["#3b82f6", "#10b981", "#8b5cf6", "#f59e0b",
   "#ef4444", "#06b6d4", "#ec4899", "#14b8a6"]

/-- `getSessionColor` (session.types.ts lines 114-116):
`SESSION_COLORS[index % SESSION_COLORS.length]`. -/
def getSessionColor (index : Nat) : String :=
  SESSION_COLORS.getD (index % SESSION_COLORS.length) ""

/-- C9: `getSessionColor` is a pure function of the zero-based index
alone, equal to the palette entry at position `i % 8`; in particular it
is periodic with period 8: `getSessionColor (i + 8) = getSessionColor i`
for every `i ≥ 0`. -/
theorem getSessionColor_periodic (i : Nat) :
    getSessionColor (i + 8) = getSessionColor i
      ∧ SESSION_COLORS.length = 8
      ∧ getSessionColor i = SESSION_COLORS.getD (i % 8) "" := by
  have hlen : SESSION_COLORS.length = 8 := rfl
  refine ⟨?_, hlen, ?_⟩
  · unfold getSessionColor
    rw [hlen, Nat.add_mod_right]
  · unfold getSessionColor
    rw [hlen]

/-! ## Sessions panel: data model (src/src/types/session.types.ts) -/

/-- The `latestEvent` summary attached to a session: a (required) tool
name, a timestamp and an optional file name. -/
structure LatestEventInfo where
  toolName : Str
  timestamp : Nat
  fileName : Option Str
deriving DecidableEq

/-- The fields of `UIAgentSessionData` that the sessions panel reads.
`status` is one of the status strings; it is kept as a string because the
panel compares it with the status-filter string. -/
structure UIAgentSessionData where
  sessionId : Str
  directory : Str
  workingDirectory : Str
  lastActivity : Nat
  customName : Option Str
  status : Str
deriving DecidableEq

/-- `SessionWithEvents` restricted to the fields the grouping, filtering
and card logic read. -/
structure SessionWithEvents where
  session : UIAgentSessionData
  latestEvent : Option LatestEventInfo
deriving DecidableEq

/-! ## Sessions panel: status and free-text filtering
(AgentSessionsPanel.tsx lines 71-96) -/

/-- `toLowerCase`, modelled character-wise. -/
def toLowerStr (s : Str) : Str := s.map Char.toLower

/-- `String.prototype.includes`: the needle occurs contiguously in the
haystack. -/
def isSubstr (needle hay : Str) : Bool := decide (needle <:+: hay)

/-- The five entries of the `searchableText` array (lines 81-87), in
source order; `latestEvent?.toolName` and `latestEvent?.fileName` are
absent when `latestEvent` is. -/
def searchFields (s : SessionWithEvents) : List (Option Str) :=
  [s.session.customName, some s.session.sessionId, some s.session.workingDirectory,
   s.latestEvent.map (fun ev => ev.toolName),
   s.latestEvent.bind (fun ev => ev.fileName)]

/-- `searchableText` (lines 81-90): `.filter(Boolean)` drops the absent
fields and the present-but-empty strings (both are falsy), then
`.join(' ')` and `.toLowerCase()`. -/
def searchableText (s : SessionWithEvents) : Str :=
  toLowerStr (List.intercalate [' ']
    (((searchFields s).filterMap id).filter (fun t => !t.isEmpty)))

/-- The match test of line 91: `searchableText.includes(query)` with the
lowercased query. -/
def matchesSearch (searchQuery : Str) (s : SessionWithEvents) : Bool :=
  isSubstr (toLowerStr searchQuery) (searchableText s)

/-- The `'all'` status-filter value. -/
def allStatusFilter : Str := ['a', 'l', 'l']

/-- The status stage of `filteredSessions` (lines 74-76). -/
def statusFiltered (sessions : List SessionWithEvents) (statusFilter : Str) :
    List SessionWithEvents :=
  if statusFilter = allStatusFilter then sessions
  else sessions.filter (fun s => decide (s.session.status = statusFilter))

/-- `filteredSessions` (lines 71-96): the status stage followed, for a
truthy (non-empty) query, by the free-text stage. -/
def filteredSessions (sessions : List SessionWithEvents) (statusFilter searchQuery : Str) :
    List SessionWithEvents :=
  if searchQuery.isEmpty then statusFiltered sessions statusFilter
  else (statusFiltered sessions statusFilter).filter (matchesSearch searchQuery)

/-- The search corpus exactly as claim C5 words it: the space-joined
concatenation of the five fields with only the absent ones omitted
(present-but-empty fields are kept). -/
def claimSearchCorpus (s : SessionWithEvents) : Str :=
  List.intercalate [' '] ((searchFields s).filterMap id)

/-- Claim C5's match predicate: lowercased query a substring of the
lowercased claim corpus. -/
def claimSearchMatch (q : Str) (s : SessionWithEvents) : Prop :=
  toLowerStr q <:+: toLowerStr (claimSearchCorpus s)

/-- The corpus the code actually searches, amended from the claim only
in that empty present fields are omitted too. -/
def amendedSearchCorpus (s : SessionWithEvents) : Str :=
  List.intercalate [' '] (((searchFields s).filterMap id).filter (fun t => decide (t ≠ [])))

/-- A session with a present but empty custom name: `filter(Boolean)`
drops the empty string where the claim's wording keeps it. -/
def emptyNameSession : SessionWithEvents :=
  { session := { sessionId := ['a', 'b'], directory := [], workingDirectory := ['c', 'd'],
                 lastActivity := 0, customName := some [], status := ['i', 'd', 'l', 'e'] },
    latestEvent := none }

/-- The query witnessing the difference: a leading space. -/
def spaceQuery : Str := [' ', 'a', 'b']

/-- C5 as stated is false on the code: for the session whose custom name
is the (present) empty string and the non-empty query `" ab"`, the
lowercased query is a substring of the claim's corpus `" ab cd"` (absent
fields omitted, empty ones joined in), yet the session does not pass the
code's free-text filter, whose corpus is `"ab cd"`. -/
theorem searchFilter_claim_counterexample :
    spaceQuery ≠ []
    ∧ matchesSearch spaceQuery emptyNameSession = false
    ∧ claimSearchMatch spaceQuery emptyNameSession
    ∧ emptyNameSession ∉ filteredSessions [emptyNameSession] allStatusFilter spaceQuery := by
  refine ⟨by decide, by decide, ?_, by decide⟩
  unfold claimSearchMatch
  decide

theorem isEmpty_filter_eq (l : List Str) :
    l.filter (fun t => !t.isEmpty) = l.filter (fun t => decide (t ≠ [])) := by
  apply List.filter_congr
  intro x hx
  cases x with
  | nil => simp
  | cons a t => simp

/-- C5 (amended): for every session and non-empty query, the session
passes the free-text filter if and only if it passes the status filter
and the lowercased query is a substring of the lowercased space-joined
concatenation of its custom name, session id, working directory, latest
tool name and latest file name, with absent **or empty** fields omitted;
the match is case-insensitive by construction (both sides lowercased). -/
theorem searchFilter_matches_amended (sessions : List SessionWithEvents)
    (statusFilter searchQuery : Str) (s : SessionWithEvents) (hq : searchQuery ≠ []) :
    s ∈ filteredSessions sessions statusFilter searchQuery
      ↔ s ∈ filteredSessions sessions statusFilter []
        ∧ toLowerStr searchQuery <:+: toLowerStr (amendedSearchCorpus s) := by
  have hne : searchQuery.isEmpty = false := by
    cases searchQuery with
    | nil => exact absurd rfl hq
    | cons a l => rfl
  have htext : searchableText s = toLowerStr (amendedSearchCorpus s) := by
    unfold searchableText amendedSearchCorpus
    rw [isEmpty_filter_eq]
  have hq1 : filteredSessions sessions statusFilter searchQuery
      = (statusFiltered sessions statusFilter).filter (matchesSearch searchQuery) := by
    unfold filteredSessions
    rw [hne]
    simp
  have hq0 : filteredSessions sessions statusFilter [] = statusFiltered sessions statusFilter := rfl
  rw [hq1, hq0, List.mem_filter]
  have hmatch : matchesSearch searchQuery s = true
      ↔ toLowerStr searchQuery <:+: toLowerStr (amendedSearchCorpus s) := by
    unfold matchesSearch isSubstr
    rw [htext]
    exact decide_eq_true_iff
  rw [hmatch]

/-- A session matching the query `"ab"` used in the witness below. -/
def matchingSession : SessionWithEvents :=
  { session := { sessionId := ['a', 'b'], directory := [], workingDirectory := ['c', 'd'],
                 lastActivity := 0, customName := none, status := ['i', 'd', 'l', 'e'] },
    latestEvent := none }

theorem searchFilter_matches_amended_witness :
    ((['a', 'b'] : Str) ≠ [])
    ∧ (matchingSession ∈ filteredSessions [matchingSession] allStatusFilter []
        ∧ toLowerStr ['a', 'b'] <:+: toLowerStr (amendedSearchCorpus matchingSession)) :=
  ⟨by decide,
    (searchFilter_matches_amended [matchingSession] allStatusFilter ['a', 'b'] matchingSession
        (by decide)).mp (by decide)⟩

/-! ## Session card: current-task selection
(src/src/components/AgentSessionCard.tsx lines 44-52) -/

/-- Todo status (session.types.ts): pending, in progress or completed. -/
inductive TodoStatus where
  | pending
  | inProgress
  | completed
deriving DecidableEq

/-- `TodoItem` (session.types.ts). -/
structure TodoItem where
  id : Str
  content : Str
  status : TodoStatus
  timestamp : Nat
deriving DecidableEq

/-- `getTodoToShow` (AgentSessionCard.tsx lines 44-52): `null` when no
todos (absent list counts, and so does an empty one, via `hasTodos`);
otherwise the first in-progress item when one exists, else the first
pending item (`pending[0]` guarded by `pending.length > 0`), else the
last completed item (`completed[completed.length - 1] || null`).  The
source binds the pending filter to a local; it is written out twice here
with no change of meaning. -/
def getTodoToShow : Option (List TodoItem) → Option TodoItem
  | none => none
  | some todos =>
    if todos.isEmpty then none
    else
      match todos.find? (fun t => decide (t.status = TodoStatus.inProgress)) with
      | some t => some t
      | none =>
        if 0 < (todos.filter (fun t => decide (t.status = TodoStatus.pending))).length then
          (todos.filter (fun t => decide (t.status = TodoStatus.pending))).head?
        else (todos.filter (fun t => decide (t.status = TodoStatus.completed))).getLast?

theorem head?_filter_eq_find? {α : Type} (p : α → Bool) (l : List α) :
    (l.filter p).head? = l.find? p := by
  induction l with
  | nil => rfl
  | cons a t ih =>
    by_cases h : p a
    · simp [List.filter_cons, List.find?_cons, h]
    · simp [List.filter_cons, List.find?_cons, h, ih]

theorem mem_of_head?_eq {α : Type} {l : List α} {a : α} (h : l.head? = some a) : a ∈ l := by
  cases l with
  | nil => simp at h
  | cons x t =>
    simp only [List.head?_cons, Option.some.injEq] at h
    rw [← h]
    exact List.mem_cons_self x t

theorem mem_of_getLast?_eq {α : Type} {l : List α} {a : α} (h : l.getLast? = some a) :
    a ∈ l := by
  rw [← List.head?_reverse] at h
  exact List.mem_reverse.mp (mem_of_head?_eq h)

/-- C7: on a non-empty todo list the surfaced "current task" is the
first in-progress item when some item is in progress, else the first
pending item when some item is pending, else (all items then being
completed) the most recent completed item, which always exists; an empty
or absent list surfaces nothing. -/
theorem getTodoToShow_rule (todos : List TodoItem) (h : todos ≠ []) :
    ((∃ t ∈ todos, t.status = TodoStatus.inProgress) →
        getTodoToShow (some todos)
          = todos.find? (fun t => decide (t.status = TodoStatus.inProgress)))
    ∧ ((∀ t ∈ todos, t.status ≠ TodoStatus.inProgress) →
        (∃ t ∈ todos, t.status = TodoStatus.pending) →
        getTodoToShow (some todos)
          = todos.find? (fun t => decide (t.status = TodoStatus.pending)))
    ∧ ((∀ t ∈ todos, t.status ≠ TodoStatus.inProgress ∧ t.status ≠ TodoStatus.pending) →
        getTodoToShow (some todos)
          = (todos.filter (fun t => decide (t.status = TodoStatus.completed))).getLast?
        ∧ ∃ t ∈ todos, getTodoToShow (some todos) = some t ∧ t.status = TodoStatus.completed)
    ∧ getTodoToShow (some []) = none ∧ getTodoToShow none = none := by
  have hne : todos.isEmpty = false := by
    cases todos with
    | nil => exact absurd rfl h
    | cons a t => rfl
  refine ⟨?_, ?_, ?_, rfl, rfl⟩
  · rintro ⟨t, hmem, hstat⟩
    obtain ⟨u, hu⟩ :
        ∃ u, todos.find? (fun t => decide (t.status = TodoStatus.inProgress)) = some u := by
      rcases hfind : todos.find? (fun t => decide (t.status = TodoStatus.inProgress)) with _ | u
      · have := List.find?_eq_none.mp hfind t hmem
        simp [hstat] at this
      · exact ⟨u, hfind⟩
    simp only [getTodoToShow, hne, Bool.false_eq_true, if_false]
    rw [hu]
  · intro hnone hex
    obtain ⟨t, hmem, hstat⟩ := hex
    have hfind : todos.find? (fun t => decide (t.status = TodoStatus.inProgress)) = none := by
      apply List.find?_eq_none.mpr
      intro x hx
      simp [hnone x hx]
    have hplen : 0 < (todos.filter (fun t => decide (t.status = TodoStatus.pending))).length := by
      apply List.length_pos_of_mem
      exact List.mem_filter.mpr ⟨hmem, by simp [hstat]⟩
    simp only [getTodoToShow, hne, Bool.false_eq_true, if_false]
    rw [hfind]
    simp only [hplen, if_pos]
    exact head?_filter_eq_find? _ todos
  · intro hall
    have hfind : todos.find? (fun t => decide (t.status = TodoStatus.inProgress)) = none := by
      apply List.find?_eq_none.mpr
      intro x hx
      simp [(hall x hx).1]
    have hpend : todos.filter (fun t => decide (t.status = TodoStatus.pending)) = [] := by
      apply List.filter_eq_nil_iff.mpr
      intro x hx
      simp [(hall x hx).2]
    have hcompl : ∀ t ∈ todos, t.status = TodoStatus.completed := by
      intro t ht
      rcases hs : t.status with _ | _ | _
      · exact absurd hs (hall t ht).2
      · exact absurd hs (hall t ht).1
      · rfl
    have hcfilter : todos.filter (fun t => decide (t.status = TodoStatus.completed)) = todos := by
      apply List.filter_eq_self.mpr
      intro x hx
      simp [hcompl x hx]
    have hshow : getTodoToShow (some todos)
        = (todos.filter (fun t => decide (t.status = TodoStatus.completed))).getLast? := by
      simp only [getTodoToShow, hne, Bool.false_eq_true, if_false]
      rw [hfind]
      simp [hpend]
    refine ⟨hshow, ?_⟩
    obtain ⟨u, hu⟩ : ∃ u, todos.getLast? = some u := by
      rcases hlast : todos.getLast? with _ | u
      · exact absurd (List.getLast?_eq_none_iff.mp hlast) h
      · exact ⟨u, rfl⟩
    refine ⟨u, mem_of_getLast?_eq hu, ?_, hcompl u (mem_of_getLast?_eq hu)⟩
    rw [hshow, hcfilter]
    exact hu

/-- A concrete three-item todo list exercising the in-progress branch of
the selection rule. -/
def exTodos : List TodoItem :=
  [{ id := ['1'], content := ['a'], status := TodoStatus.completed, timestamp := 1 },
   { id := ['2'], content := ['b'], status := TodoStatus.inProgress, timestamp := 2 },
   { id := ['3'], content := ['c'], status := TodoStatus.pending, timestamp := 3 }]

theorem getTodoToShow_rule_witness :
    (exTodos ≠ [] ∧ ∃ t ∈ exTodos, t.status = TodoStatus.inProgress)
    ∧ getTodoToShow (some exTodos)
        = exTodos.find? (fun t => decide (t.status = TodoStatus.inProgress)) :=
  ⟨⟨by decide, by decide⟩,
    (getTodoToShow_rule exTodos (by decide)).1 (by decide)⟩

/-! ## Sessions panel: directory normalization
(AgentSessionsPanel.tsx lines 61-64 and 111-120: the expression
`raw.replace(/\\/g, '/').replace(/\/+$/, '') || raw`) -/

/-- One step of `replace(/\\/g, '/')`: a backslash becomes a slash,
every other character is kept. -/
def sepChar (c : Char) : Char := if c = '\\' then '/' else c

/-- `replace(/\\/g, '/')`. -/
def unifySep (s : Str) : Str := s.map sepChar

/-- `replace(/\/+$/, '')`: remove every trailing `'/'`. -/
def stripTrailingSlashes (s : Str) : Str :=
  (s.reverse.dropWhile (fun c => decide (c = '/'))).reverse

/-- The two replacements composed. -/
def canonDir (s : Str) : Str := stripTrailingSlashes (unifySep s)

/-- The full normalization expression: the composed replacements, with
the original string as fallback when they leave nothing (`|| raw`). -/
def normalizeDir (raw : Str) : Str :=
  if (canonDir raw).isEmpty then raw else canonDir raw

theorem stripTrailingSlashes_sublist (s : Str) : (stripTrailingSlashes s).Sublist s := by
  have h1 : (s.reverse.dropWhile (fun c => decide (c = '/'))).Sublist s.reverse :=
    List.dropWhile_sublist _
  have h2 := h1.reverse
  rwa [List.reverse_reverse] at h2

theorem head?_dropWhile_false {α : Type} (p : α → Bool) (l : List α) (a : α)
    (h : (l.dropWhile p).head? = some a) : p a = false := by
  induction l with
  | nil => simp [List.dropWhile] at h
  | cons x t ih =>
    by_cases hx : p x
    · rw [List.dropWhile_cons_of_pos hx] at h
      exact ih h
    · rw [List.dropWhile_cons_of_neg hx] at h
      simp only [List.head?_cons, Option.some.injEq] at h
      rw [← h]
      exact Bool.of_not_eq_true hx

theorem sepChar_ne_backslash (a : Char) : sepChar a ≠ '\\' := by
  unfold sepChar
  split
  · decide
  · assumption

theorem sepChar_idem (a : Char) : sepChar (sepChar a) = sepChar a := by
  unfold sepChar
  by_cases h : a = '\\'
  · simp [h]
  · simp [h]

theorem canonDir_mem_no_backslash (r : Str) : ∀ c ∈ canonDir r, c ≠ '\\' := by
  intro c hc
  have hmem : c ∈ unifySep r := (stripTrailingSlashes_sublist (unifySep r)).mem hc
  obtain ⟨a, _, ha⟩ := List.mem_map.mp hmem
  rw [← ha]
  exact sepChar_ne_backslash a

theorem canonDir_getLast?_ne_slash (r : Str) : (canonDir r).getLast? ≠ some '/' := by
  intro h
  unfold canonDir stripTrailingSlashes at h
  rw [List.getLast?_reverse] at h
  have := head?_dropWhile_false (fun c => decide (c = '/')) (unifySep r).reverse '/' h
  simp at this

theorem canonDir_append_replicate (r : Str) (k : Nat) :
    canonDir (r ++ List.replicate k '/') = canonDir r := by
  unfold canonDir stripTrailingSlashes unifySep
  rw [List.map_append, List.map_replicate]
  have hsep : sepChar '/' = '/' := rfl
  rw [hsep, List.reverse_append, List.reverse_replicate, List.dropWhile_append]
  have hrep : List.dropWhile (fun c => decide (c = '/')) (List.replicate k '/') = [] := by
    rw [List.dropWhile_replicate]
    simp
  rw [hrep]
  rfl

theorem unifySep_idem (r : Str) : unifySep (unifySep r) = unifySep r := by
  unfold unifySep
  rw [List.map_map]
  apply List.map_congr_left
  intro a _
  exact sepChar_idem a

theorem canonDir_unifySep (r : Str) : canonDir (unifySep r) = canonDir r := by
  unfold canonDir
  rw [unifySep_idem]

theorem canonDir_isEmpty_false (r : Str) (h : canonDir r ≠ []) :
    (canonDir r).isEmpty = false := by
  rcases hc : canonDir r with _ | ⟨a, t⟩
  · exact absurd hc h
  · rfl

/-- C6 as stated is false on the code: the non-empty directory strings
`"/"` and `"\\"` normalize (via the `|| raw` fallback) to themselves, so
the normalized result of `"/"` ends in a separator, the backslash of
`"\\"` survives, and the two separator-style variants of the same (root)
directory get different keys. -/
theorem normalizeDir_counterexample :
    (['/'] : Str) ≠ []
    ∧ (normalizeDir ['/']).getLast? = some '/'
    ∧ (['\\'] : Str) ≠ []
    ∧ '\\' ∈ normalizeDir ['\\']
    ∧ normalizeDir ['/'] ≠ normalizeDir ['\\'] := by
  decide

/-- C6 (amended): for every directory string containing at least one
non-separator character (equivalently: whose separator-unified,
trailing-trimmed form is non-empty) the normalization unifies every
backslash into a slash and trims all trailing separators — the result
has no backslash and no trailing separator — and any two directory
strings with the same unified-and-trimmed form (in particular, variants
differing only in separator style or trailing separators) receive the
same key; no letter case is touched, so comparison of keys stays
case-sensitive (`"a"` and `"A"` normalize to distinct keys).  Strings
consisting only of separators fall back to themselves. -/
theorem normalizeDir_amended (r : Str) (h : canonDir r ≠ []) :
    normalizeDir r = canonDir r
    ∧ (∀ c ∈ normalizeDir r, c ≠ '\\')
    ∧ (normalizeDir r).getLast? ≠ some '/'
    ∧ (normalizeDir r).getLast? ≠ some '\\'
    ∧ (∀ r' : Str, canonDir r' = canonDir r → normalizeDir r' = normalizeDir r)
    ∧ (∀ k : Nat, normalizeDir (r ++ List.replicate k '/') = normalizeDir r)
    ∧ normalizeDir (unifySep r) = normalizeDir r
    ∧ normalizeDir ['a'] ≠ normalizeDir ['A'] := by
  have heq : normalizeDir r = canonDir r := by
    unfold normalizeDir
    rw [canonDir_isEmpty_false r h]
    simp
  refine ⟨heq, ?_, ?_, ?_, ?_, ?_, ?_, by decide⟩
  · rw [heq]
    exact canonDir_mem_no_backslash r
  · rw [heq]
    exact canonDir_getLast?_ne_slash r
  · rw [heq]
    intro hc
    have hmem : '\\' ∈ canonDir r := mem_of_getLast?_eq hc
    exact canonDir_mem_no_backslash r '\\' hmem rfl
  · intro r' hr'
    have h' : canonDir r' ≠ [] := by
      rw [hr']
      exact h
    have heq' : normalizeDir r' = canonDir r' := by
      unfold normalizeDir
      rw [canonDir_isEmpty_false r' h']
      simp
    rw [heq, heq', hr']
  · intro k
    have h' : canonDir (r ++ List.replicate k '/') ≠ [] := by
      rw [canonDir_append_replicate]
      exact h
    have heq' : normalizeDir (r ++ List.replicate k '/')
        = canonDir (r ++ List.replicate k '/') := by
      unfold normalizeDir
      rw [canonDir_isEmpty_false _ h']
      simp
    rw [heq, heq', canonDir_append_replicate]
  · have h' : canonDir (unifySep r) ≠ [] := by
      rw [canonDir_unifySep]
      exact h
    have heq' : normalizeDir (unifySep r) = canonDir (unifySep r) := by
      unfold normalizeDir
      rw [canonDir_isEmpty_false _ h']
      simp
    rw [heq, heq', canonDir_unifySep]

theorem normalizeDir_amended_witness :
    (canonDir ['/', 'a', '/'] ≠ [])
    ∧ normalizeDir ['/', 'a', '/'] = canonDir ['/', 'a', '/']
    ∧ normalizeDir ['/', 'a', '/'] = ['/', 'a'] :=
  ⟨by decide, (normalizeDir_amended ['/', 'a', '/'] (by decide)).1, by decide⟩

/-! ## Sessions panel: grouping by normalized directory
(AgentSessionsPanel.tsx lines 108-155) -/

/-- `SessionDirectoryGroup` (AgentSessionsPanel.tsx lines 34-40). -/
structure SessionDirectoryGroup where
  directory : Str
  normalizedDirectory : Str
  sessions : List SessionWithEvents
  lastActivity : Nat
  isCurrentDirectory : Bool
deriving DecidableEq

/-- `UNKNOWN_DIRECTORY_LABEL` (line 42). -/
def UNKNOWN_DIRECTORY_LABEL : Str :=
  ['U', 'n', 'k', 'n', 'o', 'w', 'n', ' ', 'D', 'i', 'r', 'e', 'c', 't', 'o', 'r', 'y']

/-- `session.directory || session.workingDirectory ||
UNKNOWN_DIRECTORY_LABEL` (lines 112-115): JS falsy chaining on strings is
emptiness chaining. -/
def rawDirectoryOf (s : SessionWithEvents) : Str :=
  if s.session.directory.isEmpty then
    (if s.session.workingDirectory.isEmpty then UNKNOWN_DIRECTORY_LABEL
     else s.session.workingDirectory)
  else s.session.directory

/-- `normalizedKey` (lines 117-120): the label passes through unchanged,
anything else is normalized. -/
def normalizedKeyOf (raw : Str) : Str :=
  if raw = UNKNOWN_DIRECTORY_LABEL then UNKNOWN_DIRECTORY_LABEL else normalizeDir raw

/-- The grouping key of a session. -/
def sessionKey (s : SessionWithEvents) : Str := normalizedKeyOf (rawDirectoryOf s)

/-- `group.sessions.push(...)` plus the `lastActivity` bump (lines
134-138). -/
def pushSession (g : SessionDirectoryGroup) (s : SessionWithEvents) : SessionDirectoryGroup :=
  { g with
      sessions := g.sessions ++ [s],
      lastActivity :=
        if g.lastActivity < s.session.lastActivity then s.session.lastActivity
        else g.lastActivity }

/-- The group created on a key miss (lines 123-131) with the session
pushed into it. -/
def newGroup (s : SessionWithEvents) : SessionDirectoryGroup :=
  pushSession
    { directory := rawDirectoryOf s, normalizedDirectory := sessionKey s,
      sessions := [], lastActivity := 0, isCurrentDirectory := false } s

/-- One iteration of the grouping loop (lines 111-139).  The source
looks the key up in an insertion-ordered `Map` and pushes into the found
or freshly inserted group; here that is rendered as: update the unique
group with this key when one exists, otherwise append a new group. -/
def addToGroups (gs : List SessionDirectoryGroup) (s : SessionWithEvents) :
    List SessionDirectoryGroup :=
  if gs.any (fun g => decide (g.normalizedDirectory = sessionKey s)) then
    gs.map (fun g => if g.normalizedDirectory = sessionKey s then pushSession g s else g)
  else gs ++ [newGroup s]

/-- The grouping loop over the filtered sessions, in order
(`Array.from(groups.values())` preserves Map insertion order). -/
def groupSessions (ss : List SessionWithEvents) : List SessionDirectoryGroup :=
  ss.foldl addToGroups []

/-- `normalizedRepositoryPath` (lines 61-64): `null` for an absent or
empty (falsy) path, otherwise the normalization. -/
def normalizedRepositoryPath (repositoryPath : Option Str) : Option Str :=
  match repositoryPath with
  | none => none
  | some p => if p.isEmpty then none else some (normalizeDir p)

/-- The mapping step of lines 141-146: recompute `isCurrentDirectory` as
`normalizedRepositoryPath !== null && group.normalizedDirectory ===
normalizedRepositoryPath`. -/
def markCurrentDirectory (nrp : Option Str) (gs : List SessionDirectoryGroup) :
    List SessionDirectoryGroup :=
  gs.map (fun g =>
    { g with
        isCurrentDirectory :=
          match nrp with
          | some q => decide (g.normalizedDirectory = q)
          | none => false })

/-- `a.directory.localeCompare(b.directory) <= 0`, modelled as code-point
lexicographic order on the character lists. -/
def dirLe (a b : Str) : Bool := decide (a ≤ b)

/-- The sort comparator of lines 148-152 as a total preorder: the
current-directory group precedes every other, ties broken by directory
name. -/
def groupLe (a b : SessionDirectoryGroup) : Bool :=
  if a.isCurrentDirectory && !b.isCurrentDirectory then true
  else if b.isCurrentDirectory && !a.isCurrentDirectory then false
  else dirLe a.directory b.directory

/-- `sessionsByDirectory` (lines 108-155): filter, group in insertion
order, mark the current directory, and sort with the comparator. -/
def sessionsByDirectory (sessions : List SessionWithEvents)
    (statusFilter searchQuery : Str) (repositoryPath : Option Str) :
    List SessionDirectoryGroup :=
  (markCurrentDirectory (normalizedRepositoryPath repositoryPath)
      (groupSessions (filteredSessions sessions statusFilter searchQuery))).mergeSort groupLe

/-! ## Sessions panel: grouping invariants -/

theorem pushSession_normalizedDirectory (g : SessionDirectoryGroup) (s : SessionWithEvents) :
    (pushSession g s).normalizedDirectory = g.normalizedDirectory := rfl

theorem pushSession_sessions (g : SessionDirectoryGroup) (s : SessionWithEvents) :
    (pushSession g s).sessions = g.sessions ++ [s] := rfl

theorem newGroup_normalizedDirectory (s : SessionWithEvents) :
    (newGroup s).normalizedDirectory = sessionKey s := rfl

theorem newGroup_sessions (s : SessionWithEvents) : (newGroup s).sessions = [s] := rfl

/-- The invariant carried through the grouping fold: group keys are
pairwise distinct, every member of a group has that group's key, and the
groups' member lists together hold exactly the sessions processed so
far. -/
def GroupsInv (processed : List SessionWithEvents) (gs : List SessionDirectoryGroup) : Prop :=
  ((gs.map (fun g => g.normalizedDirectory)).Nodup)
  ∧ (∀ g ∈ gs, ∀ s ∈ g.sessions, g.normalizedDirectory = sessionKey s)
  ∧ ((gs.map (fun g => g.sessions)).flatten).Perm processed

theorem keys_map_update (gs : List SessionDirectoryGroup) (s : SessionWithEvents) :
    ((gs.map (fun g => if g.normalizedDirectory = sessionKey s then pushSession g s else g)).map
        (fun g => g.normalizedDirectory))
      = gs.map (fun g => g.normalizedDirectory) := by
  rw [List.map_map]
  apply List.map_congr_left
  intro g _
  show (if g.normalizedDirectory = sessionKey s then pushSession g s else g).normalizedDirectory
      = g.normalizedDirectory
  by_cases hk : g.normalizedDirectory = sessionKey s
  · rw [if_pos hk]
    rfl
  · rw [if_neg hk]

theorem flatten_map_update (gs : List SessionDirectoryGroup) (s : SessionWithEvents)
    (hnd : (gs.map (fun g => g.normalizedDirectory)).Nodup)
    (hmem : ∃ g ∈ gs, g.normalizedDirectory = sessionKey s) :
    (((gs.map (fun g => if g.normalizedDirectory = sessionKey s then pushSession g s else g)).map
        (fun g => g.sessions)).flatten).Perm
      ((gs.map (fun g => g.sessions)).flatten ++ [s]) := by
  induction gs with
  | nil =>
    obtain ⟨g, hg, _⟩ := hmem
    exact absurd hg (List.not_mem_nil g)
  | cons h t ih =>
    rw [List.map_cons, List.nodup_cons] at hnd
    by_cases hk : h.normalizedDirectory = sessionKey s
    · have htail : ∀ g ∈ t, ¬ g.normalizedDirectory = sessionKey s := by
        intro g hg heq
        exact hnd.1 (List.mem_map.mpr ⟨g, hg, heq.trans hk.symm⟩)
      have ht : t.map (fun g => if g.normalizedDirectory = sessionKey s then pushSession g s else g)
          = List.map id t := by
        apply List.map_congr_left
        intro g hg
        rw [if_neg (htail g hg)]
        rfl
      rw [List.map_cons, if_pos hk, ht, List.map_id, List.map_cons, List.flatten_cons,
        pushSession_sessions, List.map_cons, List.flatten_cons, List.append_assoc,
        List.append_assoc]
      exact List.Perm.append_left h.sessions List.perm_append_comm
    · have hmem' : ∃ g ∈ t, g.normalizedDirectory = sessionKey s := by
        obtain ⟨g, hg, hgk⟩ := hmem
        rcases List.mem_cons.mp hg with hgh | hgt
        · exact absurd (hgh ▸ hgk) hk
        · exact ⟨g, hgt, hgk⟩
      have hp := ih hnd.2 hmem'
      rw [List.map_cons, if_neg hk, List.map_cons, List.flatten_cons, List.map_cons,
        List.flatten_cons, List.append_assoc]
      exact List.Perm.append_left h.sessions hp

theorem groupsInv_add (processed : List SessionWithEvents) (gs : List SessionDirectoryGroup)
    (s : SessionWithEvents) (h : GroupsInv processed gs) :
    GroupsInv (processed ++ [s]) (addToGroups gs s) := by
  obtain ⟨hnd, hkey, hperm⟩ := h
  unfold addToGroups
  by_cases hex : gs.any (fun g => decide (g.normalizedDirectory = sessionKey s)) = true
  · rw [if_pos hex]
    have hexmem : ∃ g ∈ gs, g.normalizedDirectory = sessionKey s := by
      obtain ⟨g, hg, hgk⟩ := List.any_eq_true.mp hex
      exact ⟨g, hg, of_decide_eq_true hgk⟩
    refine ⟨?_, ?_, ?_⟩
    · rw [keys_map_update]
      exact hnd
    · intro g hg s' hs'
      obtain ⟨g0, hg0, hfg⟩ := List.mem_map.mp hg
      by_cases hk : g0.normalizedDirectory = sessionKey s
      · rw [if_pos hk] at hfg
        rw [← hfg] at hs' ⊢
        rw [pushSession_normalizedDirectory]
        rw [pushSession_sessions] at hs'
        rcases List.mem_append.mp hs' with hs1 | hs1
        · exact hkey g0 hg0 s' hs1
        · rw [List.mem_singleton.mp hs1]
          exact hk
      · rw [if_neg hk] at hfg
        rw [← hfg] at hs' ⊢
        exact hkey g0 hg0 s' hs'
    · exact (flatten_map_update gs s hnd hexmem).trans (hperm.append_right [s])
  · rw [if_neg hex]
    have hnomem : ∀ g ∈ gs, g.normalizedDirectory ≠ sessionKey s := by
      intro g hg heq
      apply hex
      exact List.any_eq_true.mpr ⟨g, hg, decide_eq_true heq⟩
    refine ⟨?_, ?_, ?_⟩
    · rw [List.map_append]
      apply List.Nodup.append hnd
      · simp [newGroup_normalizedDirectory]
      · intro k hk1 hk2
        obtain ⟨g, hg, hgk⟩ := List.mem_map.mp hk1
        simp only [List.map_cons, List.map_nil, List.mem_singleton,
          newGroup_normalizedDirectory] at hk2
        exact hnomem g hg (hgk.trans hk2)
    · intro g hg s' hs'
      rcases List.mem_append.mp hg with hg1 | hg1
      · exact hkey g hg1 s' hs'
      · rw [List.mem_singleton.mp hg1] at hs' ⊢
        rw [newGroup_sessions] at hs'
        rw [List.mem_singleton.mp hs', newGroup_normalizedDirectory]
    · rw [List.map_append]
      simp only [List.map_cons, List.map_nil, newGroup_sessions]
      rw [List.flatten_append]
      simp only [List.flatten_cons, List.flatten_nil, List.append_nil]
      exact hperm.append_right [s]

theorem groupsInv_foldl (ss : List SessionWithEvents) :
    ∀ (processed : List SessionWithEvents) (gs : List SessionDirectoryGroup),
      GroupsInv processed gs → GroupsInv (processed ++ ss) (ss.foldl addToGroups gs) := by
  induction ss with
  | nil =>
    intro p gs h
    simpa using h
  | cons s t ih =>
    intro p gs h
    have h2 := ih (p ++ [s]) (addToGroups gs s) (groupsInv_add p gs s h)
    rw [List.append_assoc] at h2
    simpa using h2

theorem groupsInv_groupSessions (ss : List SessionWithEvents) :
    GroupsInv ss (groupSessions ss) := by
  have h0 : GroupsInv [] [] := by
    refine ⟨List.nodup_nil, ?_, List.Perm.refl _⟩
    intro g hg
    exact absurd hg (List.not_mem_nil g)
  have := groupsInv_foldl ss [] [] h0
  simpa [groupSessions] using this

/-! ## Sessions panel: marking and sorting lemmas -/

theorem markCurrent_keys (nrp : Option Str) (gs : List SessionDirectoryGroup) :
    (markCurrentDirectory nrp gs).map (fun g => g.normalizedDirectory)
      = gs.map (fun g => g.normalizedDirectory) := by
  unfold markCurrentDirectory
  rw [List.map_map]
  apply List.map_congr_left
  intro g _
  rfl

theorem markCurrent_sessions (nrp : Option Str) (gs : List SessionDirectoryGroup) :
    (markCurrentDirectory nrp gs).map (fun g => g.sessions)
      = gs.map (fun g => g.sessions) := by
  unfold markCurrentDirectory
  rw [List.map_map]
  apply List.map_congr_left
  intro g _
  rfl

theorem markCurrent_key_mem (nrp : Option Str) (gs : List SessionDirectoryGroup)
    (hkey : ∀ g ∈ gs, ∀ s ∈ g.sessions, g.normalizedDirectory = sessionKey s) :
    ∀ g ∈ markCurrentDirectory nrp gs, ∀ s ∈ g.sessions, g.normalizedDirectory = sessionKey s := by
  intro g hg s hs
  obtain ⟨g0, hg0, hfg⟩ := List.mem_map.mp hg
  rw [← hfg] at hs ⊢
  exact hkey g0 hg0 s hs

theorem markCurrent_isCurrent (nrp : Option Str) (gs : List SessionDirectoryGroup) :
    ∀ g ∈ markCurrentDirectory nrp gs, g.isCurrentDirectory = true →
      ∃ q, nrp = some q ∧ g.normalizedDirectory = q := by
  intro g hg hc
  obtain ⟨g0, hg0, hfg⟩ := List.mem_map.mp hg
  rw [← hfg] at hc ⊢
  rcases nrp with _ | q
  · simp at hc
  · refine ⟨q, rfl, ?_⟩
    exact of_decide_eq_true hc

/-- The properties of `sessionsByDirectory` needed by the partition and
ordering claims, transported through `markCurrentDirectory` and
`mergeSort`. -/
theorem sessionsByDirectory_inv (sessions : List SessionWithEvents)
    (statusFilter searchQuery : Str) (repositoryPath : Option Str) :
    ((sessionsByDirectory sessions statusFilter searchQuery repositoryPath).map
        (fun g => g.normalizedDirectory)).Nodup
    ∧ (∀ g ∈ sessionsByDirectory sessions statusFilter searchQuery repositoryPath,
        ∀ s ∈ g.sessions, g.normalizedDirectory = sessionKey s)
    ∧ (((sessionsByDirectory sessions statusFilter searchQuery repositoryPath).map
        (fun g => g.sessions)).flatten).Perm
        (filteredSessions sessions statusFilter searchQuery)
    ∧ (∀ g ∈ sessionsByDirectory sessions statusFilter searchQuery repositoryPath,
        g.isCurrentDirectory = true →
          ∃ q, normalizedRepositoryPath repositoryPath = some q ∧ g.normalizedDirectory = q) := by
  obtain ⟨hnd, hkey, hperm⟩ :=
    groupsInv_groupSessions (filteredSessions sessions statusFilter searchQuery)
  have hsortperm :
      (sessionsByDirectory sessions statusFilter searchQuery repositoryPath).Perm
        (markCurrentDirectory (normalizedRepositoryPath repositoryPath)
          (groupSessions (filteredSessions sessions statusFilter searchQuery))) :=
    List.mergeSort_perm _ groupLe
  refine ⟨?_, ?_, ?_, ?_⟩
  · have h1 := (hsortperm.map (fun g => g.normalizedDirectory)).symm
    apply h1.nodup
    rw [markCurrent_keys]
    exact hnd
  · intro g hg s hs
    exact markCurrent_key_mem _ _ hkey g (hsortperm.mem_iff.mp hg) s hs
  · have h1 := (hsortperm.map (fun g => g.sessions)).flatten
    rw [markCurrent_sessions] at h1
    exact h1.trans hperm
  · intro g hg
    exact markCurrent_isCurrent _ _ g (hsortperm.mem_iff.mp hg)

/-- C2: for every session list, status filter and search query, the
directory groups produced by `sessionsByDirectory` partition the
filtered session set: the groups' member lists together are a
permutation of the filtered list, every group member carries that
group's normalized-directory key, group keys are pairwise distinct,
every filtered session lies in some group, and a session lying in two
groups forces the groups to be equal; no group contains a session
outside the filtered set (the permutation gives both inclusions). -/
theorem directoryGroups_partition (sessions : List SessionWithEvents)
    (statusFilter searchQuery : Str) (repositoryPath : Option Str) :
    (((sessionsByDirectory sessions statusFilter searchQuery repositoryPath).map
        (fun g => g.sessions)).flatten).Perm
        (filteredSessions sessions statusFilter searchQuery)
    ∧ (∀ g ∈ sessionsByDirectory sessions statusFilter searchQuery repositoryPath,
        ∀ s ∈ g.sessions, g.normalizedDirectory = sessionKey s)
    ∧ ((sessionsByDirectory sessions statusFilter searchQuery repositoryPath).map
        (fun g => g.normalizedDirectory)).Nodup
    ∧ (∀ s ∈ filteredSessions sessions statusFilter searchQuery,
        ∃ g ∈ sessionsByDirectory sessions statusFilter searchQuery repositoryPath,
          s ∈ g.sessions)
    ∧ (∀ g₁ ∈ sessionsByDirectory sessions statusFilter searchQuery repositoryPath,
        ∀ g₂ ∈ sessionsByDirectory sessions statusFilter searchQuery repositoryPath,
          ∀ s : SessionWithEvents, s ∈ g₁.sessions → s ∈ g₂.sessions → g₁ = g₂)
    ∧ (∀ g ∈ sessionsByDirectory sessions statusFilter searchQuery repositoryPath,
        ∀ s ∈ g.sessions, s ∈ filteredSessions sessions statusFilter searchQuery) := by
  obtain ⟨hnd, hkey, hperm, _⟩ :=
    sessionsByDirectory_inv sessions statusFilter searchQuery repositoryPath
  refine ⟨hperm, hkey, hnd, ?_, ?_, ?_⟩
  · intro s hs
    have hs1 : s ∈ ((sessionsByDirectory sessions statusFilter searchQuery repositoryPath).map
        (fun g => g.sessions)).flatten := hperm.mem_iff.mpr hs
    obtain ⟨l, hl, hsl⟩ := List.mem_flatten.mp hs1
    obtain ⟨g, hg, hgl⟩ := List.mem_map.mp hl
    exact ⟨g, hg, hgl ▸ hsl⟩
  · intro g₁ hg₁ g₂ hg₂ s hs₁ hs₂
    have hk : g₁.normalizedDirectory = g₂.normalizedDirectory :=
      (hkey g₁ hg₁ s hs₁).trans (hkey g₂ hg₂ s hs₂).symm
    exact List.inj_on_of_nodup_map hnd hg₁ hg₂ hk
  · intro g hg s hs
    apply hperm.mem_iff.mp
    exact List.mem_flatten.mpr ⟨g.sessions, List.mem_map.mpr ⟨g, hg, rfl⟩, hs⟩

/-- Two sessions in distinct directories used by the concrete witnesses
below; the current repository path will be `"/b"`. -/
def sessA : SessionWithEvents :=
  { session := { sessionId := ['a'], directory := ['/', 'a'], workingDirectory := ['/', 'a'],
                 lastActivity := 5, customName := none, status := ['i', 'd', 'l', 'e'] },
    latestEvent := none }

def sessB : SessionWithEvents :=
  { session := { sessionId := ['b'], directory := ['/', 'b'], workingDirectory := ['/', 'b'],
                 lastActivity := 7, customName := none, status := ['i', 'd', 'l', 'e'] },
    latestEvent := none }

theorem directoryGroups_partition_witness :
    (sessB ∈ filteredSessions [sessA, sessB] allStatusFilter [])
    ∧ ∃ g ∈ sessionsByDirectory [sessA, sessB] allStatusFilter [] (some ['/', 'b']),
        sessB ∈ g.sessions :=
  ⟨by decide,
    (directoryGroups_partition [sessA, sessB] allStatusFilter [] (some ['/', 'b'])).2.2.2.1
      sessB (by decide)⟩

/-! ## Sessions panel: comparator facts and group ordering -/

theorem groupLe_true_iff (a b : SessionDirectoryGroup) :
    groupLe a b = true
      ↔ ((a.isCurrentDirectory = true ∧ b.isCurrentDirectory = false)
          ∨ (a.isCurrentDirectory = b.isCurrentDirectory ∧ a.directory ≤ b.directory)) := by
  unfold groupLe dirLe
  rcases ha : a.isCurrentDirectory <;> rcases hb : b.isCurrentDirectory <;> simp [ha, hb]

theorem groupLe_trans (a b c : SessionDirectoryGroup) (hab : groupLe a b = true)
    (hbc : groupLe b c = true) : groupLe a c = true := by
  rw [groupLe_true_iff] at hab hbc ⊢
  rcases hab with ⟨ha, hb⟩ | ⟨hab', hdab⟩ <;> rcases hbc with ⟨hb', hc⟩ | ⟨hbc', hdbc⟩
  · rw [hb] at hb'
    exact absurd hb' (by simp)
  · left
    refine ⟨ha, ?_⟩
    rw [← hbc']
    exact hb
  · left
    refine ⟨?_, hc⟩
    rw [hab']
    exact hb'
  · right
    exact ⟨hab'.trans hbc', le_trans hdab hdbc⟩

theorem groupLe_total (a b : SessionDirectoryGroup) : (groupLe a b || groupLe b a) = true := by
  rw [Bool.or_eq_true]
  by_cases ha : a.isCurrentDirectory = true <;> by_cases hb : b.isCurrentDirectory = true
  · rcases le_total a.directory b.directory with h | h
    · exact Or.inl ((groupLe_true_iff a b).mpr (Or.inr ⟨ha.trans hb.symm, h⟩))
    · exact Or.inr ((groupLe_true_iff b a).mpr (Or.inr ⟨hb.trans ha.symm, h⟩))
  · have hb' : b.isCurrentDirectory = false := by simpa using hb
    exact Or.inl ((groupLe_true_iff a b).mpr (Or.inl ⟨ha, hb'⟩))
  · have ha' : a.isCurrentDirectory = false := by simpa using ha
    exact Or.inr ((groupLe_true_iff b a).mpr (Or.inl ⟨hb, ha'⟩))
  · have ha' : a.isCurrentDirectory = false := by simpa using ha
    have hb' : b.isCurrentDirectory = false := by simpa using hb
    rcases le_total a.directory b.directory with h | h
    · exact Or.inl ((groupLe_true_iff a b).mpr (Or.inr ⟨ha'.trans hb'.symm, h⟩))
    · exact Or.inr ((groupLe_true_iff b a).mpr (Or.inr ⟨hb'.trans ha'.symm, h⟩))

/-- C3: in the ordered group sequence produced by the sessions panel,
a group marked as the current directory (its normalized directory equals
the normalized current repository path) is the head of the sequence, and
the remaining (non-current) groups appear in ascending lexicographic
order of their directory name. -/
theorem currentDirectoryGroup_first (sessions : List SessionWithEvents)
    (statusFilter searchQuery : Str) (repositoryPath : Option Str) :
    (∀ g ∈ sessionsByDirectory sessions statusFilter searchQuery repositoryPath,
        g.isCurrentDirectory = true →
          (sessionsByDirectory sessions statusFilter searchQuery repositoryPath).head? = some g)
    ∧ ((sessionsByDirectory sessions statusFilter searchQuery repositoryPath).filter
        (fun g => !g.isCurrentDirectory)).Pairwise
        (fun a b => a.directory ≤ b.directory) := by
  have hinv := sessionsByDirectory_inv sessions statusFilter searchQuery repositoryPath
  have hpw : (sessionsByDirectory sessions statusFilter searchQuery repositoryPath).Pairwise
      (fun a b => groupLe a b = true) :=
    List.sorted_mergeSort groupLe_trans groupLe_total _
  constructor
  · intro g hg hc
    obtain ⟨q, hq, hkq⟩ := hinv.2.2.2 g hg hc
    rcases hl : sessionsByDirectory sessions statusFilter searchQuery repositoryPath
      with _ | ⟨h0, t⟩
    · rw [hl] at hg
      exact absurd hg (List.not_mem_nil g)
    · rw [hl] at hg hpw
      rw [List.head?_cons, Option.some.injEq]
      rcases List.mem_cons.mp hg with hgh | hgt
      · exact hgh.symm
      · have hle : groupLe h0 g = true := (List.pairwise_cons.mp hpw).1 g hgt
        rcases (groupLe_true_iff h0 g).mp hle with ⟨_, hgc⟩ | ⟨heqc, _⟩
        · rw [hc] at hgc
          exact absurd hgc (by simp)
        · have hh0c : h0.isCurrentDirectory = true := heqc.trans hc
          have hh0mem : h0 ∈ sessionsByDirectory sessions statusFilter searchQuery
              repositoryPath := by
            rw [hl]
            exact List.mem_cons_self h0 t
          obtain ⟨q', hq', hkq'⟩ := hinv.2.2.2 h0 hh0mem hh0c
          have hqq : q' = q := by
            rw [hq] at hq'
            exact (Option.some.injEq q' q).mp hq'.symm
          have hkk : h0.normalizedDirectory = g.normalizedDirectory := by
            rw [hkq', hqq, ← hkq]
          have hgmem : g ∈ sessionsByDirectory sessions statusFilter searchQuery
              repositoryPath := by
            rw [hl]
            exact hg
          exact List.inj_on_of_nodup_map hinv.1 hh0mem hgmem hkk
  · have hfil : ((sessionsByDirectory sessions statusFilter searchQuery repositoryPath).filter
        (fun g => !g.isCurrentDirectory)).Pairwise (fun a b => groupLe a b = true) :=
      hpw.sublist (List.filter_sublist _)
    refine List.Pairwise.imp_of_mem ?_ hfil
    intro a b ha hb hle
    have ha' : a.isCurrentDirectory = false := by
      have := (List.mem_filter.mp ha).2
      simpa using this
    rcases (groupLe_true_iff a b).mp hle with ⟨hac, _⟩ | ⟨_, hdir⟩
    · rw [ha'] at hac
      exact absurd hac (by simp)
    · exact hdir

/-- The group that `sessionsByDirectory` builds for `sessB` when the
current repository path is `"/b"`. -/
def exGroupB : SessionDirectoryGroup :=
  { directory := ['/', 'b'], normalizedDirectory := ['/', 'b'], sessions := [sessB],
    lastActivity := 7, isCurrentDirectory := true }

theorem currentDirectoryGroup_first_witness :
    (exGroupB ∈ sessionsByDirectory [sessA, sessB] allStatusFilter [] (some ['/', 'b'])
      ∧ exGroupB.isCurrentDirectory = true)
    ∧ (sessionsByDirectory [sessA, sessB] allStatusFilter [] (some ['/', 'b'])).head?
        = some exGroupB := by
  have hmem : exGroupB ∈ sessionsByDirectory [sessA, sessB] allStatusFilter []
      (some ['/', 'b']) := by
    apply (List.mergeSort_perm _ groupLe).mem_iff.mpr
    decide
  exact ⟨⟨hmem, by decide⟩,
    (currentDirectoryGroup_first [sessA, sessB] allStatusFilter [] (some ['/', 'b'])).1
      exGroupB hmem (by decide)⟩
